import Mathlib

/-! Verification of the `nsqueue::spsc_queue<T, N>` ring buffer
(`src/include/spsc_queue.h`).

The queue is embedded as a pure state-passing model: the single-threaded
semantics of each member function.  Machine indices (`std::size_t`) are
modelled as `Nat`; every index the code stores is first masked with
`N - 1`, so all stored values stay below `N` and never approach `2^64`,
making the `Nat` embedding exact.  Slots (`AlignedData::mObj`, which the
source value-initialises at construction) are a `List α` of length `N`
whose fresh cells hold `default`.

The busy-wait ("force") operations are given their sequential semantics:
single-threaded, the spin loop reloads the same atomic value on every
iteration, so it exits after at most one reload or never; divergence is
modelled as `none`.
-/

set_option maxHeartbeats 1000000

namespace nsqueue

/-- Constant `details::cacheLineSize`: the feature-test macro branch is not taken
(the macro name in the source is misspelled), so the fallback value 64 is
used. -/
def cacheLineSize : Nat := 64

/-- Threshold `STACK_BYTES = 524'288` (512 KiB). -/
def STACK_BYTES : Nat := 524288

/-- State of `spsc_queue<T, N>`: the slot array `items_` plus the two
index pairs `WriteState { writeIndex_, readIndexCache_ }` and
`ReadState { readIndex_, writeIndexCache_ }`.  All four indices start at 0. -/
structure spsc_queue (α : Type) where
  items : List α
  writeIndex_ : Nat
  readIndexCache_ : Nat
  readIndex_ : Nat
  writeIndexCache_ : Nat
deriving Repr, DecidableEq

/-- A freshly constructed `spsc_queue<T, N>`: indices zero, slots
value-initialised (`T mObj{}`). -/
def spsc_queue.init (α : Type) [Inhabited α] (N : Nat) : spsc_queue α :=
  ⟨List.replicate N default, 0, 0, 0, 0⟩

/-- Index advance `(i + 1) & mask_` with `mask_ = N - 1`, the index advance used
throughout the source. -/
def wrapInc (N i : Nat) : Nat := (i + 1) &&& (N - 1)

/-- Member `emplace` (lines 39-54): compute `nextWriteIdx`; if it hits the cached
read index, refresh the cache from the authoritative read index and fail
if still equal; otherwise construct into slot `writeIdx` and publish
`nextWriteIdx`. -/
def emplace {α : Type} (N : Nat) (q : spsc_queue α) (x : α) :
    Bool × spsc_queue α :=
  let writeIdx := q.writeIndex_
  let nextWriteIdx := wrapInc N writeIdx
  if nextWriteIdx = q.readIndexCache_ then
    let cache := q.readIndex_
    if nextWriteIdx = cache then
      (false, { q with readIndexCache_ := cache })
    else
      (true, { q with readIndexCache_ := cache,
                      items := q.items.set writeIdx x,
                      writeIndex_ := nextWriteIdx })
  else
    (true, { q with items := q.items.set writeIdx x,
                    writeIndex_ := nextWriteIdx })

/-- Member `push` (line 69): `return emplace(item);`. -/
def push {α : Type} (N : Nat) (q : spsc_queue α) (x : α) :
    Bool × spsc_queue α :=
  emplace N q x

/-- Member `force_emplace` (lines 56-67), sequential semantics: the spin loop
`while (nextWriteIdx == readIndexCache_) readIndexCache_ = readIndex_`
reloads the same value each iteration single-threaded, so it exits after
at most one reload, or never (`none`). -/
def force_emplace {α : Type} (N : Nat) (q : spsc_queue α) (x : α) :
    Option (spsc_queue α) :=
  let writeIdx := q.writeIndex_
  let nextWriteIdx := wrapInc N writeIdx
  if nextWriteIdx = q.readIndexCache_ then
    let cache := q.readIndex_
    if nextWriteIdx = cache then
      none
    else
      some { q with readIndexCache_ := cache,
                    items := q.items.set writeIdx x,
                    writeIndex_ := nextWriteIdx }
  else
    some { q with items := q.items.set writeIdx x,
                  writeIndex_ := nextWriteIdx }

/-- Member `pop(T& item)` (lines 99-115): if the read index equals the cached
write index, refresh the cache from the authoritative write index and
fail if still equal; otherwise move the slot out and advance the read
index.  `some v` is the moved-out item, `none` the `false` return. -/
def pop {α : Type} [Inhabited α] (N : Nat) (q : spsc_queue α) :
    Option α × spsc_queue α :=
  let readIdx := q.readIndex_
  let writeIdx := q.writeIndexCache_
  if readIdx = writeIdx then
    let writeIdx2 := q.writeIndex_
    if readIdx = writeIdx2 then
      (none, { q with writeIndexCache_ := writeIdx2 })
    else
      (some (q.items.getD readIdx default),
       { q with writeIndexCache_ := writeIdx2,
                readIndex_ := wrapInc N readIdx })
  else
    (some (q.items.getD readIdx default),
     { q with readIndex_ := wrapInc N readIdx })

/-- Member `force_pop(T& item)` (lines 73-85), sequential semantics of the spin
loop `while (readIdx == writeIdx) writeIdx = writeIndexCache_ =
writeIndex_`: at most one reload breaks it, or it never exits (`none`). -/
def force_pop {α : Type} [Inhabited α] (N : Nat) (q : spsc_queue α) :
    Option (α × spsc_queue α) :=
  let readIdx := q.readIndex_
  let writeIdx := q.writeIndexCache_
  if readIdx = writeIdx then
    let writeIdx2 := q.writeIndex_
    if readIdx = writeIdx2 then
      none
    else
      some (q.items.getD readIdx default,
            { q with writeIndexCache_ := writeIdx2,
                     readIndex_ := wrapInc N readIdx })
  else
    some (q.items.getD readIdx default,
          { q with readIndex_ := wrapInc N readIdx })

/-- Member `consume_one(F&& func)` (lines 133-150): the `pop` check; on success
`func` is invoked once with the moved-out slot value and the read index
advances.  `some v` records the single callback invocation with argument
`v`; `none` means the callback was never invoked. -/
def consume_one {α : Type} [Inhabited α] (N : Nat) (q : spsc_queue α) :
    Option α × spsc_queue α :=
  let readIdx := q.readIndex_
  let writeIdx := q.writeIndexCache_
  if readIdx = writeIdx then
    let writeIdx2 := q.writeIndex_
    if readIdx = writeIdx2 then
      (none, { q with writeIndexCache_ := writeIdx2 })
    else
      (some (q.items.getD readIdx default),
       { q with writeIndexCache_ := writeIdx2,
                readIndex_ := wrapInc N readIdx })
  else
    (some (q.items.getD readIdx default),
     { q with readIndex_ := wrapInc N readIdx })

/-- Member `consume_all(F&& func)` (lines 152-158): `while (consume_one(func))
++n; return n;`.  The loop is given explicit fuel (single-threaded it
stops within `size + 1` iterations); the result is the count returned,
the list of callback-invocation arguments in order, and the final
state. -/
def consume_all {α : Type} [Inhabited α] (N : Nat) :
    Nat → spsc_queue α → Nat × List α × spsc_queue α
  | 0, q => (0, [], q)
  | fuel + 1, q =>
    match consume_one N q with
    | (none, q') => (0, [], q')
    | (some v, q') =>
      let r := consume_all N fuel q'
      (r.1 + 1, v :: r.2.1, r.2.2)

/-- Member `full()` (lines 170-175). -/
def full {α : Type} (N : Nat) (q : spsc_queue α) : Bool :=
  wrapInc N q.writeIndex_ = q.readIndex_

/-- Member `size()` (lines 177-181): `(w >= r) ? w - r : (N - r) + w`. -/
def size {α : Type} (N : Nat) (q : spsc_queue α) : Nat :=
  if q.writeIndex_ ≥ q.readIndex_ then q.writeIndex_ - q.readIndex_
  else (N - q.readIndex_) + q.writeIndex_

/-- Member `empty()` (lines 183-186). -/
def empty {α : Type} (q : spsc_queue α) : Bool :=
  q.writeIndex_ = q.readIndex_

/-- Member `capacity()` (line 200): returns `mask_ = N - 1`. -/
def capacity (N : Nat) : Nat := N - 1

/-- Member `reset()` (lines 202-207): zero both indices and both caches (slots
are left as they are). -/
def reset {α : Type} (q : spsc_queue α) : spsc_queue α :=
  { q with readIndexCache_ := 0, writeIndexCache_ := 0,
           readIndex_ := 0, writeIndex_ := 0 }

/-- Modelled from the spec: `front()` as the spec intends it — the slot
selected by the authoritative read index.  The source's `front()`
(lines 190-198) reads `reader_.readIdx_`, a member that does not exist
(`ReadState` declares `readIndex_`), so any instantiation of the
source's `front()` fails to compile; this definition follows the spec's
words "returns a reference to the next element to be dequeued … an
implementer should make peek read the authoritative read index". -/
def front_intended {α : Type} [Inhabited α] (q : spsc_queue α) : α :=
  q.items.getD q.readIndex_ default

/-- Constant `storage_bytes = 2 * N * cacheLineSize` (line 26). -/
def storage_bytes (N : Nat) : Nat := 2 * N * cacheLineSize

/-- Flag `use_heap = storage_bytes > STACK_BYTES` (line 27). -/
def use_heap (N : Nat) : Bool := storage_bytes N > STACK_BYTES

/-- Where the slot array lives. -/
inductive StorageKind where
  | inlineArray
  | heapArray
deriving Repr, DecidableEq

/-- From the `queue_storage` specializations (lines 215-231): the
specialization for `heap = true` holds a `std::array<U, SIZE>` member
(embedded inline in the queue object); the specialization for
`heap = false` holds a `std::unique_ptr<U[]>` built with
`std::make_unique` (a single heap allocation at construction). -/
def queue_storage_kind (heap : Bool) : StorageKind :=
  if heap then .inlineArray else .heapArray

/-- The storage actually selected for `items_` (line 232):
`queue_storage<AlignedData, N, use_heap>`. -/
def items_storage_kind (N : Nat) : StorageKind :=
  queue_storage_kind (use_heap N)

/-- The storage-selection policy as the spec states it: heap exactly when
the footprint exceeds the 512 KiB threshold, inline otherwise. -/
def spec_storage_kind (N : Nat) : StorageKind :=
  if storage_bytes N > STACK_BYTES then .heapArray else .inlineArray

/-! Reasoning layer: wraparound arithmetic, abstract contents, invariant. -/

/-- Wraparound-aware subtraction, the shape of `size()`'s expression
`(a >= b) ? a - b : (N - b) + a`. -/
def wrapSub (N a b : Nat) : Nat := if a ≥ b then a - b else (N - b) + a

/-- Wraparound-aware addition of an offset to a base index, both below
`N`: `(a + i) mod N` in branch form. -/
def wrapAdd (N a i : Nat) : Nat := if a + i < N then a + i else a + i - N

/-- The abstract FIFO contents: the `size` slots starting at the read
index, in dequeue order. -/
def contents {α : Type} [Inhabited α] (N : Nat) (q : spsc_queue α) : List α :=
  (List.range (size N q)).map (fun i => q.items.getD (wrapAdd N q.readIndex_ i) default)

/-- The single-threaded state invariant: the slot array has `N` cells,
all four indices are below `N`, the producer's cached view of the fill
level (`wrapSub N writeIndex_ readIndexCache_`) never underestimates the
true fill level, and the consumer's cached view
(`wrapSub N writeIndexCache_ readIndex_`) never overestimates it. -/
def INV {α : Type} (N : Nat) (q : spsc_queue α) : Prop :=
  q.items.length = N ∧
  q.writeIndex_ < N ∧ q.readIndex_ < N ∧
  q.readIndexCache_ < N ∧ q.writeIndexCache_ < N ∧
  size N q ≤ wrapSub N q.writeIndex_ q.readIndexCache_ ∧
  wrapSub N q.writeIndexCache_ q.readIndex_ ≤ size N q

theorem wrapInc_eq {k i : Nat} (h : i < 2^k) :
    wrapInc (2^k) i = if i + 1 = 2^k then 0 else i + 1 := by
  unfold wrapInc
  rw [Nat.and_pow_two_sub_one_eq_mod]
  split
  · simp [*]
  · exact Nat.mod_eq_of_lt (by omega)

theorem size_le {α : Type} {N : Nat} {q : spsc_queue α}
    (hw : q.writeIndex_ < N) (hr : q.readIndex_ < N) :
    size N q ≤ N - 1 := by
  unfold size; split_ifs <;> omega

theorem full_iff {α : Type} {k : Nat} {q : spsc_queue α}
    (hw : q.writeIndex_ < 2^k) (hr : q.readIndex_ < 2^k) :
    full (2^k) q = true ↔ size (2^k) q = 2^k - 1 := by
  simp only [full, size, wrapInc_eq hw, decide_eq_true_eq]
  split_ifs <;> omega

theorem empty_iff {α : Type} {N : Nat} {q : spsc_queue α}
    (hr : q.readIndex_ < N) :
    empty q = true ↔ size N q = 0 := by
  simp only [empty, size, decide_eq_true_eq]
  split_ifs <;> omega

theorem contents_length {α : Type} [Inhabited α] {N : Nat} {q : spsc_queue α} :
    (contents N q).length = size N q := by
  simp [contents]

/-- Slots outside the live window are invisible to `contents`. -/
theorem window_map_set_ne {α : Type} [Inhabited α] (N r w n : Nat)
    (items : List α) (x : α) (hno : ∀ i < n, wrapAdd N r i ≠ w) :
    (List.range n).map (fun i => (items.set w x).getD (wrapAdd N r i) default)
      = (List.range n).map (fun i => items.getD (wrapAdd N r i) default) := by
  refine List.map_congr_left ?_
  intro i hi
  rw [List.mem_range] at hi
  simp [List.getD, List.getElem?_set_ne (Ne.symm (hno i hi))]

/-- Writing the slot one past the live window appends to it. -/
theorem window_map_set_snoc {α : Type} [Inhabited α] (N r w n : Nat)
    (items : List α) (x : α) (hw : w < items.length)
    (hlast : wrapAdd N r n = w) (hno : ∀ i < n, wrapAdd N r i ≠ w) :
    (List.range (n+1)).map (fun i => (items.set w x).getD (wrapAdd N r i) default)
      = (List.range n).map (fun i => items.getD (wrapAdd N r i) default) ++ [x] := by
  rw [show List.range (n+1) = List.range n ++ [n] by
        simpa using List.range_succ (n := n),
      List.map_append]
  congr 1
  · exact window_map_set_ne N r w n items x hno
  · simp [hlast, List.getD, List.getElem?_set_self, hw]

/-- Splitting the live window at its head slot. -/
theorem window_map_cons {α : Type} [Inhabited α] (N r n : Nat) (items : List α) :
    (List.range (n+1)).map (fun i => items.getD (wrapAdd N r i) default)
      = items.getD (wrapAdd N r 0) default ::
        (List.range n).map (fun i => items.getD (wrapAdd N r (i+1)) default) := by
  rw [List.range_succ_eq_map]
  simp [List.map_map, Function.comp]

theorem wrapAdd_wrapInc {k r i : Nat} (hr : r < 2^k) (hi : i < 2^k) :
    wrapAdd (2^k) (wrapInc (2^k) r) i = wrapAdd (2^k) r (i+1) := by
  rw [wrapInc_eq hr]
  unfold wrapAdd
  split_ifs <;> omega

theorem wrapAdd_zero {N r : Nat} (hr : r < N) : wrapAdd N r 0 = r := by
  unfold wrapAdd
  split_ifs <;> omega

/-! Transition lemmas for `emplace` and `pop`. -/

/-- On a full queue (under the invariant) `emplace` returns `false` and
the state is bit-for-bit unchanged: the cache refresh rewrites the value
the cache already holds. -/
theorem emplace_of_full {α : Type} {k : Nat} {q : spsc_queue α} (x : α)
    (hinv : INV (2^k) q) (hfull : size (2^k) q = 2^k - 1) :
    emplace (2^k) q x = (false, q) := by
  obtain ⟨hlen, hw, hr, hc, hd, hprod, hcons⟩ := hinv
  obtain ⟨items, w, c, r, d⟩ := q
  simp only [size, wrapSub] at hfull hprod
  dsimp only at hw hr hc hd
  have hcr : c = r := by split_ifs at hfull hprod <;> omega
  have hnext : wrapInc (2^k) w = r := by
    rw [wrapInc_eq hw]
    split_ifs at hfull ⊢ <;> omega
  subst hcr
  simp [emplace, hnext]

/-- On a non-full queue (under the invariant) `emplace` succeeds: it
appends `x` to the abstract contents, the size grows by one, and the
consumer-side fields are untouched. -/
theorem emplace_of_not_full {α : Type} [Inhabited α] {k : Nat}
    {q : spsc_queue α} (x : α)
    (hinv : INV (2^k) q) (hlt : size (2^k) q < 2^k - 1) :
    (emplace (2^k) q x).1 = true ∧
    INV (2^k) (emplace (2^k) q x).2 ∧
    size (2^k) (emplace (2^k) q x).2 = size (2^k) q + 1 ∧
    contents (2^k) (emplace (2^k) q x).2 = contents (2^k) q ++ [x] ∧
    ((emplace (2^k) q x).2).readIndex_ = q.readIndex_ ∧
    ((emplace (2^k) q x).2).writeIndex_ = wrapInc (2^k) q.writeIndex_ ∧
    ((emplace (2^k) q x).2).writeIndexCache_ = q.writeIndexCache_ := by
  obtain ⟨hlen, hw, hr, hc, hd, hprod, hcons⟩ := hinv
  obtain ⟨items, w, c, r, d⟩ := q
  dsimp only at hlen hw hr hc hd
  simp only [size, wrapSub] at hprod hcons hlt
  have hNpos : 0 < 2^k := Nat.two_pow_pos k
  have hwlt : w < items.length := by omega
  have hn : size (2^k) (⟨items, w, c, r, d⟩ : spsc_queue α)
      = wrapSub (2^k) w r := rfl
  have hlast : wrapAdd (2^k) r (wrapSub (2^k) w r) = w := by
    unfold wrapAdd wrapSub
    split_ifs <;> omega
  have hno : ∀ i < wrapSub (2^k) w r, wrapAdd (2^k) r i ≠ w := by
    intro i hi
    unfold wrapSub at hi
    unfold wrapAdd
    split_ifs at hi ⊢ <;> omega
  have hwinc : wrapInc (2^k) w < 2^k := by
    rw [wrapInc_eq hw]; split_ifs <;> omega
  have hsize : ∀ (items' : List α) (c' : Nat),
      size (2^k) (⟨items', wrapInc (2^k) w, c', r, d⟩ : spsc_queue α)
        = wrapSub (2^k) w r + 1 := by
    intro items' c'
    simp only [size]
    rw [wrapInc_eq hw]
    unfold wrapSub
    split_ifs at hlt ⊢ <;> omega
  have hcontents : ∀ c' : Nat,
      contents (2^k) (⟨items.set w x, wrapInc (2^k) w, c', r, d⟩ : spsc_queue α)
        = contents (2^k) (⟨items, w, c, r, d⟩ : spsc_queue α) ++ [x] := by
    intro c'
    unfold contents
    rw [hsize (items.set w x) c', hn]
    dsimp only
    exact window_map_set_snoc (2^k) r w _ items x hwlt hlast hno
  simp only [emplace]
  split_ifs with h1 h2
  · -- impossible: still-full after refresh contradicts `hlt`
    exfalso
    rw [wrapInc_eq hw] at h2
    split_ifs at h2 hlt <;> omega
  · -- cache refreshed to the authoritative read index, then success
    refine ⟨rfl, ⟨by simpa using hlen, hwinc, hr, hr, hd, ?_, ?_⟩,
            by rw [hsize, hn], hcontents r, rfl, rfl, rfl⟩
    · show size _ _ ≤ wrapSub _ _ _
      rw [hsize (items.set w x) r]
      dsimp only
      rw [wrapInc_eq hw]
      unfold wrapSub
      split_ifs at hlt ⊢ <;> omega
    · show wrapSub _ _ _ ≤ size _ _
      rw [hsize (items.set w x) r]
      dsimp only
      unfold wrapSub
      split_ifs at hcons ⊢ <;> omega
  · -- fast path: the cached view already shows room
    refine ⟨rfl, ⟨by simpa using hlen, hwinc, hr, hc, hd, ?_, ?_⟩,
            by rw [hsize, hn], hcontents c, rfl, rfl, rfl⟩
    · show size _ _ ≤ wrapSub _ _ _
      rw [hsize (items.set w x) c]
      dsimp only
      rw [wrapInc_eq hw] at h1 ⊢
      unfold wrapSub
      split_ifs at hprod h1 ⊢ <;> omega
    · show wrapSub _ _ _ ≤ size _ _
      rw [hsize (items.set w x) c]
      dsimp only
      unfold wrapSub
      split_ifs at hcons ⊢ <;> omega

/-- On an empty queue (under the invariant) `pop` returns `false` and
the state is bit-for-bit unchanged: the cache refresh rewrites the value
the cache already holds. -/
theorem pop_of_empty {α : Type} [Inhabited α] {N : Nat} {q : spsc_queue α}
    (hinv : INV N q) (h0 : size N q = 0) :
    pop N q = (none, q) := by
  obtain ⟨hlen, hw, hr, hc, hd, hprod, hcons⟩ := hinv
  obtain ⟨items, w, c, r, d⟩ := q
  simp only [size, wrapSub] at h0 hcons
  dsimp only at hw hr hc hd
  have hwr : w = r := by split_ifs at h0 <;> omega
  have hdr : d = r := by split_ifs at hcons <;> omega
  subst hwr; subst hdr
  simp [pop]

/-- On a non-empty queue (under the invariant) `pop` succeeds with the
slot at the authoritative read index — the head of the abstract
contents — and advances the read index, leaving the producer-side
fields and the slot array untouched. -/
theorem pop_of_nonempty {α : Type} [Inhabited α] {k : Nat}
    {q : spsc_queue α}
    (hinv : INV (2^k) q) (hpos : 0 < size (2^k) q) :
    (pop (2^k) q).1 = some (q.items.getD q.readIndex_ default) ∧
    INV (2^k) (pop (2^k) q).2 ∧
    size (2^k) (pop (2^k) q).2 = size (2^k) q - 1 ∧
    contents (2^k) q
      = q.items.getD q.readIndex_ default :: contents (2^k) (pop (2^k) q).2 ∧
    ((pop (2^k) q).2).readIndex_ = wrapInc (2^k) q.readIndex_ ∧
    ((pop (2^k) q).2).writeIndex_ = q.writeIndex_ ∧
    ((pop (2^k) q).2).items = q.items ∧
    ((pop (2^k) q).2).readIndexCache_ = q.readIndexCache_ := by
  obtain ⟨hlen, hw, hr, hc, hd, hprod, hcons⟩ := hinv
  obtain ⟨items, w, c, r, d⟩ := q
  dsimp only at hlen hw hr hc hd
  simp only [size, wrapSub] at hprod hcons hpos
  have hNpos : 0 < 2^k := Nat.two_pow_pos k
  have hn : size (2^k) (⟨items, w, c, r, d⟩ : spsc_queue α)
      = wrapSub (2^k) w r := rfl
  have hrinc : wrapInc (2^k) r < 2^k := by
    rw [wrapInc_eq hr]; split_ifs <;> omega
  have hszlt : wrapSub (2^k) w r ≤ 2^k - 1 := by
    unfold wrapSub; split_ifs <;> omega
  have hsize : ∀ (d' : Nat),
      size (2^k) (⟨items, w, c, wrapInc (2^k) r, d'⟩ : spsc_queue α)
        = wrapSub (2^k) w r - 1 := by
    intro d'
    simp only [size]
    rw [wrapInc_eq hr]
    unfold wrapSub
    split_ifs at hpos ⊢ <;> omega
  have hcontents : ∀ (d' : Nat),
      contents (2^k) (⟨items, w, c, r, d⟩ : spsc_queue α)
        = items.getD r default ::
          contents (2^k) (⟨items, w, c, wrapInc (2^k) r, d'⟩ : spsc_queue α) := by
    intro d'
    unfold contents
    rw [hsize d', hn]
    dsimp only
    obtain ⟨m, hm⟩ : ∃ m, wrapSub (2^k) w r = m + 1 :=
      ⟨wrapSub (2^k) w r - 1, by unfold wrapSub at *; split_ifs at hpos ⊢ <;> omega⟩
    rw [hm]
    simp only [Nat.add_sub_cancel]
    rw [window_map_cons (2^k) r m items, wrapAdd_zero hr]
    congr 1
    refine List.map_congr_left ?_
    intro i hi
    rw [List.mem_range] at hi
    rw [wrapAdd_wrapInc hr (by omega)]
  simp only [pop]
  split_ifs with h1 h2
  · -- refresh still shows empty: contradicts `hpos`
    exfalso
    rw [← h2] at hpos
    split_ifs at hpos <;> omega
  · -- cache refreshed to the authoritative write index, then success
    refine ⟨rfl, ⟨hlen, hw, hrinc, hc, hw, ?_, ?_⟩,
            by rw [hsize, hn], ?_, rfl, rfl, rfl, rfl⟩
    · show size _ _ ≤ wrapSub _ _ _
      rw [hsize w]
      dsimp only
      unfold wrapSub
      split_ifs at hprod ⊢ <;> omega
    · show wrapSub _ _ _ ≤ size _ _
      rw [hsize w]
      dsimp only
      rw [wrapInc_eq hr]
      unfold wrapSub
      split_ifs at hpos ⊢ <;> omega
    · exact hcontents w
  · -- fast path: the cached view already shows data
    refine ⟨rfl, ⟨hlen, hw, hrinc, hc, hd, ?_, ?_⟩,
            by rw [hsize, hn], ?_, rfl, rfl, rfl, rfl⟩
    · show size _ _ ≤ wrapSub _ _ _
      rw [hsize d]
      dsimp only
      unfold wrapSub
      split_ifs at hprod ⊢ <;> omega
    · show wrapSub _ _ _ ≤ size _ _
      rw [hsize d]
      dsimp only
      rw [wrapInc_eq hr]
      unfold wrapSub
      split_ifs at hcons h1 ⊢ <;> omega
    · exact hcontents d

/-! Blocking operations and `consume_one` versus the non-blocking pair. -/

/-- Sequentially, `consume_one` performs exactly the `pop(T&)` protocol:
same check, same slot read (handed to the callback), same index
advance. -/
theorem consume_one_eq_pop {α : Type} [Inhabited α] (N : Nat)
    (q : spsc_queue α) :
    consume_one N q = pop N q := rfl

/-- On a non-full queue `force_emplace` terminates after at most one
cache reload and produces exactly the state of a successful `emplace`;
no invariant is needed. -/
theorem force_emplace_of_not_full {α : Type} {N : Nat} {q : spsc_queue α}
    (x : α) (hfull : full N q = false) :
    (emplace N q x).1 = true ∧
    force_emplace N q x = some (emplace N q x).2 := by
  have hne : wrapInc N q.writeIndex_ ≠ q.readIndex_ := by
    simpa [full] using hfull
  by_cases h1 : wrapInc N q.writeIndex_ = q.readIndexCache_
  · have hne' : q.readIndexCache_ ≠ q.readIndex_ := h1 ▸ hne
    simp [emplace, force_emplace, h1, hne']
  · simp [emplace, force_emplace, h1]

/-- On a non-empty queue `force_pop` terminates after at most one cache
reload and yields exactly the value and state of a successful `pop`; no
invariant is needed. -/
theorem force_pop_of_not_empty {α : Type} [Inhabited α] {N : Nat}
    {q : spsc_queue α} (hemp : empty q = false) :
    ∃ v q', pop N q = (some v, q') ∧ force_pop N q = some (v, q') := by
  have hne : q.writeIndex_ ≠ q.readIndex_ := by
    simpa [empty] using hemp
  by_cases h1 : q.readIndex_ = q.writeIndexCache_
  · by_cases h2 : q.readIndex_ = q.writeIndex_
    · exact absurd h2.symm hne
    · exact ⟨q.items.getD q.readIndex_ default,
             { q with writeIndexCache_ := q.writeIndex_,
                      readIndex_ := wrapInc N q.readIndex_ },
             by simp [pop, ← h1, h2], by simp [force_pop, ← h1, h2]⟩
  · exact ⟨q.items.getD q.readIndex_ default,
           { q with readIndex_ := wrapInc N q.readIndex_ },
           by simp [pop, h1], by simp [force_pop, h1]⟩

/-- Whenever `force_emplace` terminates, its state is the state of the
(necessarily successful) `emplace`. -/
theorem force_emplace_some {α : Type} {N : Nat} {q q' : spsc_queue α}
    {x : α} (h : force_emplace N q x = some q') :
    q' = (emplace N q x).2 := by
  simp only [emplace, force_emplace] at h ⊢
  split_ifs at h ⊢ <;> simp_all

/-- Whenever `force_pop` terminates, its state is the state of the
(necessarily successful) `pop`. -/
theorem force_pop_some {α : Type} [Inhabited α] {N : Nat}
    {q q' : spsc_queue α} {v : α} (h : force_pop N q = some (v, q')) :
    q' = (pop N q).2 := by
  simp only [pop, force_pop] at h ⊢
  split_ifs at h ⊢ <;> simp_all

/-! Reachability and the invariant. -/

/-- States reachable from a freshly constructed `spsc_queue<T, 2^k>` by
any single-threaded sequence of mutating operations. -/
inductive Reachable (α : Type) [Inhabited α] (k : Nat) : spsc_queue α → Prop where
  | init : Reachable α k (spsc_queue.init α (2^k))
  | step_emplace (q : spsc_queue α) (x : α) :
      Reachable α k q → Reachable α k (emplace (2^k) q x).2
  | step_pop (q : spsc_queue α) :
      Reachable α k q → Reachable α k (pop (2^k) q).2
  | step_consume_one (q : spsc_queue α) :
      Reachable α k q → Reachable α k (consume_one (2^k) q).2
  | step_force_emplace (q q' : spsc_queue α) (x : α) :
      Reachable α k q → force_emplace (2^k) q x = some q' → Reachable α k q'
  | step_force_pop (q q' : spsc_queue α) (v : α) :
      Reachable α k q → force_pop (2^k) q = some (v, q') → Reachable α k q'
  | step_reset (q : spsc_queue α) :
      Reachable α k q → Reachable α k (reset q)

theorem inv_init {α : Type} [Inhabited α] (k : Nat) :
    INV (2^k) (spsc_queue.init α (2^k)) := by
  have : 0 < 2^k := Nat.two_pow_pos k
  refine ⟨by simp [spsc_queue.init], ?_, ?_, ?_, ?_, ?_, ?_⟩ <;>
    simp [spsc_queue.init, size, wrapSub]

theorem inv_reset {α : Type} {N : Nat} {q : spsc_queue α}
    (hinv : INV N q) : INV N (reset q) := by
  obtain ⟨hlen, hw, hr, hc, hd, _, _⟩ := hinv
  refine ⟨by simpa [reset] using hlen, ?_, ?_, ?_, ?_, ?_, ?_⟩ <;>
    simp [reset, size, wrapSub] <;> omega

theorem inv_emplace {α : Type} [Inhabited α] {k : Nat} {q : spsc_queue α}
    (hinv : INV (2^k) q) (x : α) : INV (2^k) (emplace (2^k) q x).2 := by
  rcases Nat.lt_or_ge (size (2^k) q) (2^k - 1) with h | h
  · exact (emplace_of_not_full x hinv h).2.1
  · have hfull : size (2^k) q = 2^k - 1 :=
      le_antisymm (size_le hinv.2.1 hinv.2.2.1) h
    rw [emplace_of_full x hinv hfull]
    exact hinv

theorem inv_pop {α : Type} [Inhabited α] {k : Nat} {q : spsc_queue α}
    (hinv : INV (2^k) q) : INV (2^k) (pop (2^k) q).2 := by
  rcases Nat.eq_zero_or_pos (size (2^k) q) with h | h
  · rw [pop_of_empty hinv h]
    exact hinv
  · exact (pop_of_nonempty hinv h).2.1

/-- Every reachable state satisfies the invariant. -/
theorem inv_of_reachable {α : Type} [Inhabited α] {k : Nat}
    {q : spsc_queue α} (h : Reachable α k q) : INV (2^k) q := by
  induction h with
  | init => exact inv_init k
  | step_emplace q x _ ih => exact inv_emplace ih x
  | step_pop q _ ih => exact inv_pop ih
  | step_consume_one q _ ih =>
    rw [consume_one_eq_pop]
    exact inv_pop ih
  | step_force_emplace q q' x _ hf ih =>
    rw [force_emplace_some hf]
    exact inv_emplace ih x
  | step_force_pop q q' v _ hf ih =>
    rw [force_pop_some hf]
    exact inv_pop ih
  | step_reset q _ ih => exact inv_reset ih

/-! Iterated runs of operations. -/

/-- Run one `emplace` per list element, left to right; the boolean is
the conjunction of all returned successes. -/
def runEmplaces {α : Type} (N : Nat) :
    spsc_queue α → List α → Bool × spsc_queue α
  | q, [] => (true, q)
  | q, x :: xs =>
    let r := emplace N q x
    let rest := runEmplaces N r.2 xs
    (r.1 && rest.1, rest.2)

/-- Run `n` `pop` calls, collecting each call's returned value. -/
def runPops {α : Type} [Inhabited α] (N : Nat) :
    spsc_queue α → Nat → List (Option α) × spsc_queue α
  | q, 0 => ([], q)
  | q, n + 1 =>
    let r := pop N q
    let rest := runPops N r.2 n
    (r.1 :: rest.1, rest.2)

/-- A single-threaded mix of enqueue and dequeue calls. -/
inductive Op (α : Type) where
  | enq (x : α)
  | deq

/-- Run a mixed operation sequence. -/
def runOps {α : Type} [Inhabited α] (N : Nat) :
    spsc_queue α → List (Op α) → spsc_queue α
  | q, [] => q
  | q, Op.enq x :: ops => runOps N (emplace N q x).2 ops
  | q, Op.deq :: ops => runOps N (pop N q).2 ops

/-- The true number of enqueued-but-not-dequeued elements after a mixed
operation sequence starting from `c` live elements: a successful enqueue
(room available) adds one, a failed one adds none; a dequeue removes one
when an element is present. -/
def liveCount {α : Type} (N : Nat) : Nat → List (Op α) → Nat
  | c, [] => c
  | c, Op.enq _ :: ops => liveCount N (if c < N - 1 then c + 1 else c) ops
  | c, Op.deq :: ops => liveCount N (c - 1) ops

theorem runEmplaces_sound {α : Type} [Inhabited α] {k : Nat} (xs : List α) :
    ∀ q : spsc_queue α, INV (2^k) q →
      (runEmplaces (2^k) q xs).1 = true →
      INV (2^k) (runEmplaces (2^k) q xs).2 ∧
      contents (2^k) (runEmplaces (2^k) q xs).2 = contents (2^k) q ++ xs ∧
      size (2^k) (runEmplaces (2^k) q xs).2 = size (2^k) q + xs.length := by
  induction xs with
  | nil =>
    intro q hinv _
    exact ⟨hinv, by simp [runEmplaces], by simp [runEmplaces]⟩
  | cons x xs ih =>
    intro q hinv hsucc
    simp only [runEmplaces, Bool.and_eq_true] at hsucc
    obtain ⟨h1, hrest⟩ := hsucc
    have hlt : size (2^k) q < 2^k - 1 := by
      rcases Nat.lt_or_ge (size (2^k) q) (2^k - 1) with h | h
      · exact h
      · have hfull : size (2^k) q = 2^k - 1 :=
          le_antisymm (size_le hinv.2.1 hinv.2.2.1) h
        rw [emplace_of_full x hinv hfull] at h1
        exact absurd h1 (by simp)
    obtain ⟨-, hinv', hsz, hcont, -, -, -⟩ := emplace_of_not_full x hinv hlt
    obtain ⟨hinv'', hcont'', hsz''⟩ := ih _ hinv' hrest
    refine ⟨by simpa [runEmplaces] using hinv'', ?_, ?_⟩
    · simp only [runEmplaces]
      rw [hcont'', hcont]
      simp
    · simp only [runEmplaces]
      rw [hsz'', hsz, List.length_cons]
      omega

theorem runEmplaces_complete {α : Type} [Inhabited α] {k : Nat}
    (xs : List α) :
    ∀ q : spsc_queue α, INV (2^k) q →
      size (2^k) q + xs.length ≤ 2^k - 1 →
      (runEmplaces (2^k) q xs).1 = true := by
  induction xs with
  | nil => intro q _ _; simp [runEmplaces]
  | cons x xs ih =>
    intro q hinv hroom
    simp only [List.length_cons] at hroom
    have hlt : size (2^k) q < 2^k - 1 := by omega
    obtain ⟨h1, hinv', hsz, -, -, -, -⟩ := emplace_of_not_full x hinv hlt
    simp only [runEmplaces, Bool.and_eq_true]
    exact ⟨h1, ih _ hinv' (by omega)⟩

theorem runPops_spec {α : Type} [Inhabited α] {k : Nat} (l : List α) :
    ∀ q : spsc_queue α, INV (2^k) q → contents (2^k) q = l →
      (runPops (2^k) q l.length).1 = l.map some ∧
      INV (2^k) (runPops (2^k) q l.length).2 ∧
      size (2^k) (runPops (2^k) q l.length).2 = 0 := by
  induction l with
  | nil =>
    intro q hinv hl
    have h0 : size (2^k) q = 0 := by
      rw [← contents_length (N := 2^k) (q := q), hl]
      rfl
    exact ⟨by simp [runPops], by simpa [runPops] using hinv,
           by simpa [runPops] using h0⟩
  | cons v t ih =>
    intro q hinv hl
    have hpos : 0 < size (2^k) q := by
      rw [← contents_length (N := 2^k) (q := q), hl]
      simp
    obtain ⟨hv, hinv', hsz, hcont, -, -, -, -⟩ := pop_of_nonempty hinv hpos
    rw [hl] at hcont
    obtain ⟨hvv, ht⟩ : q.items.getD q.readIndex_ default = v ∧
        contents (2^k) (pop (2^k) q).2 = t := by
      refine ⟨?_, ?_⟩ <;> [exact (List.cons.injEq _ _ _ _ ▸ hcont).1.symm;
                           exact (List.cons.injEq _ _ _ _ ▸ hcont).2.symm]
    obtain ⟨hmap, hinv'', hsz''⟩ := ih _ hinv' ht
    refine ⟨?_, by simpa [runPops] using hinv'', by simpa [runPops] using hsz''⟩
    simp only [runPops, List.length_cons, List.map_cons]
    rw [hv, hvv, hmap]

theorem runOps_size {α : Type} [Inhabited α] {k : Nat} (ops : List (Op α)) :
    ∀ q : spsc_queue α, INV (2^k) q →
      INV (2^k) (runOps (2^k) q ops) ∧
      size (2^k) (runOps (2^k) q ops)
        = liveCount (2^k) (size (2^k) q) ops := by
  induction ops with
  | nil => intro q hinv; exact ⟨hinv, rfl⟩
  | cons op ops ih =>
    intro q hinv
    cases op with
    | enq x =>
      rcases Nat.lt_or_ge (size (2^k) q) (2^k - 1) with h | h
      · obtain ⟨-, hinv', hsz, -, -, -, -⟩ := emplace_of_not_full x hinv h
        obtain ⟨hinv'', hsz''⟩ := ih _ hinv'
        refine ⟨hinv'', ?_⟩
        simp only [runOps, liveCount, if_pos h]
        rw [hsz'', hsz]
      · have hfull : size (2^k) q = 2^k - 1 :=
          le_antisymm (size_le hinv.2.1 hinv.2.2.1) h
        have hq : (emplace (2^k) q x).2 = q := by
          rw [emplace_of_full x hinv hfull]
        obtain ⟨hinv'', hsz''⟩ := ih q hinv
        refine ⟨by simpa [runOps, hq] using hinv'', ?_⟩
        simp only [runOps, liveCount, hq, if_neg (by omega : ¬ size (2^k) q < 2^k - 1)]
        exact hsz''
    | deq =>
      rcases Nat.eq_zero_or_pos (size (2^k) q) with h | h
      · have hq : (pop (2^k) q).2 = q := by rw [pop_of_empty hinv h]
        obtain ⟨hinv'', hsz''⟩ := ih q hinv
        refine ⟨by simpa [runOps, hq] using hinv'', ?_⟩
        simp only [runOps, liveCount, hq, h, Nat.zero_sub]
        rw [h] at hsz''
        exact hsz''
      · obtain ⟨-, hinv', hsz, -, -, -, -, -⟩ := pop_of_nonempty hinv h
        obtain ⟨hinv'', hsz''⟩ := ih _ hinv'
        refine ⟨hinv'', ?_⟩
        simp only [runOps, liveCount]
        rw [hsz'', hsz]

/-- With enough fuel (any bound above the current size) `consume_all`
drains the queue: the returned count is the size, the callback receives
exactly the abstract contents in order, and the final state is empty. -/
theorem consume_all_drain {α : Type} [Inhabited α] {k : Nat} :
    ∀ (fuel : Nat) (q : spsc_queue α), INV (2^k) q → size (2^k) q < fuel →
      (consume_all (2^k) fuel q).1 = size (2^k) q ∧
      (consume_all (2^k) fuel q).2.1 = contents (2^k) q ∧
      INV (2^k) (consume_all (2^k) fuel q).2.2 ∧
      size (2^k) (consume_all (2^k) fuel q).2.2 = 0 := by
  intro fuel
  induction fuel with
  | zero => intro q _ h; omega
  | succ fuel ih =>
    intro q hinv hfuel
    rcases Nat.eq_zero_or_pos (size (2^k) q) with h0 | hpos
    · have hq : pop (2^k) q = (none, q) := pop_of_empty hinv h0
      have hc : contents (2^k) q = [] := by
        have hcl := contents_length (N := 2^k) (q := q)
        rw [h0] at hcl
        exact List.eq_nil_of_length_eq_zero hcl
      simp only [consume_all, consume_one_eq_pop, hq]
      exact ⟨h0.symm, hc.symm, hinv, h0⟩
    · obtain ⟨hv, hinv', hsz, hcont, -, -, -, -⟩ := pop_of_nonempty hinv hpos
      rcases hpo : pop (2^k) q with ⟨o, q'⟩
      rw [hpo] at hv hinv' hsz hcont
      dsimp only at hv hinv' hsz hcont
      subst hv
      obtain ⟨ih1, ih2, ih3, ih4⟩ := ih q' hinv' (by omega)
      simp only [consume_all, consume_one_eq_pop, hpo]
      refine ⟨?_, ?_, ih3, ih4⟩
      · dsimp only
        rw [ih1, hsz]
        omega
      · dsimp only
        rw [ih2]
        exact hcont.symm

/-! Claim theorems. -/

/-- C1: for every sequence of successful non-blocking enqueues
(`emplace`/`push`) followed by non-blocking dequeues (`pop`), performed
single-threaded from a fresh queue, the dequeues return the values in
the exact order they were enqueued (FIFO). -/
theorem enqueue_dequeue_fifo {α : Type} [Inhabited α] (k : Nat) (xs : List α)
    (hsucc : (runEmplaces (2^k) (spsc_queue.init α (2^k)) xs).1 = true) :
    (runPops (2^k) (runEmplaces (2^k) (spsc_queue.init α (2^k)) xs).2
       xs.length).1 = xs.map some := by
  have hinv := inv_init (α := α) k
  obtain ⟨hinv', hcont, -⟩ := runEmplaces_sound xs _ hinv hsucc
  have hcont0 : contents (2^k) (spsc_queue.init α (2^k)) = [] := rfl
  rw [hcont0, List.nil_append] at hcont
  exact (runPops_spec xs _ hinv' hcont).1

theorem enqueue_dequeue_fifo_witness :
    (runPops (2^2) (runEmplaces (2^2) (spsc_queue.init Nat (2^2))
       [10, 20, 30]).2 3).1 = [some 10, some 20, some 30] :=
  enqueue_dequeue_fifo 2 [10, 20, 30] (by decide)

/-- C2: a freshly constructed `spsc_queue<T, 2^k>` reports
`empty() == true` and `size() == 0`, accepts exactly `2^k − 1`
consecutive successful enqueues after which `full() == true` and the
`2^k`-th enqueue returns `false`, and `capacity()` returns `2^k − 1`. -/
theorem fresh_queue_capacity {α : Type} [Inhabited α] (k : Nat)
    (xs : List α) (y : α) (hlen : xs.length = 2^k - 1) :
    empty (spsc_queue.init α (2^k)) = true ∧
    size (2^k) (spsc_queue.init α (2^k)) = 0 ∧
    capacity (2^k) = 2^k - 1 ∧
    (runEmplaces (2^k) (spsc_queue.init α (2^k)) xs).1 = true ∧
    full (2^k) (runEmplaces (2^k) (spsc_queue.init α (2^k)) xs).2 = true ∧
    (emplace (2^k) (runEmplaces (2^k) (spsc_queue.init α (2^k)) xs).2 y).1
      = false := by
  have hinv := inv_init (α := α) k
  have hsz0 : size (2^k) (spsc_queue.init α (2^k)) = 0 := rfl
  have hsucc := runEmplaces_complete xs _ hinv (by rw [hsz0, hlen]; omega)
  obtain ⟨hinv', -, hsz⟩ := runEmplaces_sound xs _ hinv hsucc
  have hfull : size (2^k) (runEmplaces (2^k) (spsc_queue.init α (2^k)) xs).2
      = 2^k - 1 := by rw [hsz, hsz0, hlen]; omega
  refine ⟨rfl, rfl, rfl, hsucc, ?_, ?_⟩
  · exact (full_iff hinv'.2.1 hinv'.2.2.1).2 hfull
  · rw [emplace_of_full y hinv' hfull]

theorem fresh_queue_capacity_witness :
    empty (spsc_queue.init Nat (2^3)) = true ∧
    size (2^3) (spsc_queue.init Nat (2^3)) = 0 ∧
    capacity (2^3) = 2^3 - 1 ∧
    (runEmplaces (2^3) (spsc_queue.init Nat (2^3))
       [1, 2, 3, 4, 5, 6, 7]).1 = true ∧
    full (2^3) (runEmplaces (2^3) (spsc_queue.init Nat (2^3))
       [1, 2, 3, 4, 5, 6, 7]).2 = true ∧
    (emplace (2^3) (runEmplaces (2^3) (spsc_queue.init Nat (2^3))
       [1, 2, 3, 4, 5, 6, 7]).2 8).1 = false :=
  fresh_queue_capacity 3 [1, 2, 3, 4, 5, 6, 7] 8 (by decide)

/-- C3: after every single-threaded mixed sequence of enqueues and
dequeues — including sequences that wrap the indices past the physical
end of the array — `size()` returns exactly the number of
enqueued-but-not-dequeued elements, and the value is computed by the
wraparound-aware subtraction `if write ≥ read then write − read else
(N − read) + write`. -/
theorem size_counts_live {α : Type} [Inhabited α] (k : Nat)
    (ops : List (Op α)) :
    size (2^k) (runOps (2^k) (spsc_queue.init α (2^k)) ops)
      = liveCount (2^k) 0 ops ∧
    size (2^k) (runOps (2^k) (spsc_queue.init α (2^k)) ops)
      = (if (runOps (2^k) (spsc_queue.init α (2^k)) ops).writeIndex_
            ≥ (runOps (2^k) (spsc_queue.init α (2^k)) ops).readIndex_
         then (runOps (2^k) (spsc_queue.init α (2^k)) ops).writeIndex_
              - (runOps (2^k) (spsc_queue.init α (2^k)) ops).readIndex_
         else (2^k - (runOps (2^k) (spsc_queue.init α (2^k)) ops).readIndex_)
              + (runOps (2^k) (spsc_queue.init α (2^k)) ops).writeIndex_) :=
  ⟨(runOps_size ops _ (inv_init (α := α) k)).2, rfl⟩

/-- C4: on every reachable full queue the non-blocking enqueue returns
`false` with no state change; on every reachable empty queue the
non-blocking dequeue returns `false` with no state change. -/
theorem failed_ops_no_state_change {α : Type} [Inhabited α] {k : Nat}
    {q : spsc_queue α} (hre : Reachable α k q) (x : α) :
    (full (2^k) q = true → emplace (2^k) q x = (false, q)) ∧
    (empty q = true → pop (2^k) q = (none, q)) := by
  have hinv := inv_of_reachable hre
  constructor
  · intro hfull
    exact emplace_of_full x hinv ((full_iff hinv.2.1 hinv.2.2.1).1 hfull)
  · intro hemp
    exact pop_of_empty hinv ((empty_iff hinv.2.2.1).1 hemp)

theorem failed_ops_no_state_change_witness :
    emplace (2^1) (emplace (2^1) (spsc_queue.init Nat (2^1)) 7).2 9
      = (false, (emplace (2^1) (spsc_queue.init Nat (2^1)) 7).2) ∧
    pop (2^1) (spsc_queue.init Nat (2^1)) = (none, spsc_queue.init Nat (2^1)) :=
  ⟨(failed_ops_no_state_change
      (Reachable.step_emplace _ 7 Reachable.init) 9).1 (by decide),
   (failed_ops_no_state_change Reachable.init 9).2 (by decide)⟩

/-- C5 (intended behavior; the source's `front()` reads the nonexistent
member `reader_.readIdx_` and cannot be instantiated): the spec-modelled
`front_intended` — the slot selected by the authoritative read index —
is exactly the value the next successful `pop` yields. -/
theorem front_matches_next_pop {α : Type} [Inhabited α] {N : Nat}
    {q : spsc_queue α} (hemp : empty q = false) :
    (pop N q).1 = some (front_intended q) := by
  have hne : q.writeIndex_ ≠ q.readIndex_ := by
    simpa [empty] using hemp
  by_cases h1 : q.readIndex_ = q.writeIndexCache_
  · by_cases h2 : q.readIndex_ = q.writeIndex_
    · exact absurd h2.symm hne
    · simp [pop, front_intended, ← h1, h2]
  · simp [pop, front_intended, h1]

theorem front_matches_next_pop_witness :
    (pop (2^2) (emplace (2^2) (spsc_queue.init Nat (2^2)) 5).2).1
      = some (front_intended (emplace (2^2) (spsc_queue.init Nat (2^2)) 5).2) :=
  front_matches_next_pop (by decide)

/-- C6: the claim's storage policy (heap exactly when
`2 · N · cacheLineSize` exceeds 512 KiB) is inverted in the code: the
`queue_storage` specialization selected when `use_heap` is `true` is
the one holding the inline `std::array`.  At `N = 8192` the footprint
is 1 MiB — above the threshold — yet the slots are embedded inline. -/
theorem storage_selection_inverted :
    storage_bytes 8192 > STACK_BYTES ∧
    use_heap 8192 = true ∧
    items_storage_kind 8192 = StorageKind.inlineArray ∧
    spec_storage_kind 8192 = StorageKind.heapArray ∧
    items_storage_kind 8192 ≠ spec_storage_kind 8192 := by
  decide

/-- C7: on every reachable empty queue `consume_one` returns `false`
and never invokes the callback; on every reachable non-empty queue it
invokes the callback exactly once with the moved-out oldest element,
advances the read index by one, and returns `true`. -/
theorem consume_one_drains_head {α : Type} [Inhabited α] {k : Nat}
    {q : spsc_queue α} (hre : Reachable α k q) :
    (empty q = true → consume_one (2^k) q = (none, q)) ∧
    (∀ v t, contents (2^k) q = v :: t →
      (consume_one (2^k) q).1 = some v ∧
      contents (2^k) (consume_one (2^k) q).2 = t ∧
      ((consume_one (2^k) q).2).readIndex_ = wrapInc (2^k) q.readIndex_) := by
  have hinv := inv_of_reachable hre
  constructor
  · intro hemp
    rw [consume_one_eq_pop]
    exact pop_of_empty hinv ((empty_iff hinv.2.2.1).1 hemp)
  · intro v t hvt
    have hpos : 0 < size (2^k) q := by
      rw [← contents_length (N := 2^k) (q := q), hvt]
      simp
    obtain ⟨hv, -, -, hcont, hri, -, -, -⟩ := pop_of_nonempty hinv hpos
    rw [hvt] at hcont
    injection hcont with he ht
    rw [consume_one_eq_pop]
    exact ⟨by rw [hv, ← he], by rw [← ht], hri⟩

theorem consume_one_drains_head_witness :
    (consume_one (2^3)
       (emplace (2^3) (emplace (2^3) (spsc_queue.init Nat (2^3)) 10).2
          20).2).1 = some 10 ∧
    contents (2^3) ((consume_one (2^3)
       (emplace (2^3) (emplace (2^3) (spsc_queue.init Nat (2^3)) 10).2
          20).2).2) = [20] :=
  ⟨((consume_one_drains_head (Reachable.step_emplace _ 20
       (Reachable.step_emplace _ 10 Reachable.init))).2 10 [20] (by decide)).1,
   ((consume_one_drains_head (Reachable.step_emplace _ 20
       (Reachable.step_emplace _ 10 Reachable.init))).2 10 [20] (by decide)).2.1⟩

/-- C8: on every reachable queue holding `k` elements (single-threaded,
so no concurrent producer) `consume_all` invokes the callback once per
element in FIFO order, returns the element count, and leaves the queue
empty immediately afterwards.  Fuel `2^k` bounds the loop, which
single-threaded stops within `size + 1` iterations. -/
theorem consume_all_returns_count {α : Type} [Inhabited α] {k : Nat}
    {q : spsc_queue α} (hre : Reachable α k q) :
    (consume_all (2^k) (2^k) q).1 = (contents (2^k) q).length ∧
    (consume_all (2^k) (2^k) q).2.1 = contents (2^k) q ∧
    empty ((consume_all (2^k) (2^k) q).2.2) = true := by
  have hinv := inv_of_reachable hre
  have hfuel : size (2^k) q < 2^k := by
    have h1 := size_le hinv.2.1 hinv.2.2.1
    have h2 := Nat.two_pow_pos k
    omega
  obtain ⟨h1, h2, hinv', h4⟩ := consume_all_drain (2^k) q hinv hfuel
  refine ⟨?_, h2, ?_⟩
  · rw [h1, contents_length]
  · exact (empty_iff hinv'.2.2.1).2 h4

theorem consume_all_returns_count_witness :
    (consume_all (2^3) (2^3)
       (runEmplaces (2^3) (spsc_queue.init Nat (2^3)) [1, 2, 3]).2).1
      = (contents (2^3)
          (runEmplaces (2^3) (spsc_queue.init Nat (2^3)) [1, 2, 3]).2).length ∧
    (consume_all (2^3) (2^3)
       (runEmplaces (2^3) (spsc_queue.init Nat (2^3)) [1, 2, 3]).2).2.1
      = contents (2^3)
          (runEmplaces (2^3) (spsc_queue.init Nat (2^3)) [1, 2, 3]).2 ∧
    empty ((consume_all (2^3) (2^3)
       (runEmplaces (2^3) (spsc_queue.init Nat (2^3)) [1, 2, 3]).2).2.2) = true :=
  consume_all_returns_count
    (Reachable.step_emplace _ 3 (Reachable.step_emplace _ 2
      (Reachable.step_emplace _ 1 Reachable.init)))

/-- C9: the blocking operations never return without succeeding: on a
non-full queue `force_emplace`/`force_push` terminates and enqueues
exactly as the successful non-blocking path does, and on a non-empty
queue `force_pop` terminates and dequeues the oldest element exactly as
a successful `pop` does. -/
theorem force_ops_match_nonblocking {α : Type} [Inhabited α]
    (N : Nat) (q : spsc_queue α) (x : α) :
    (full N q = false →
       (emplace N q x).1 = true ∧
       force_emplace N q x = some (emplace N q x).2) ∧
    (empty q = false →
       ∃ v q', pop N q = (some v, q') ∧ force_pop N q = some (v, q')) :=
  ⟨fun h => force_emplace_of_not_full x h, fun h => force_pop_of_not_empty h⟩

theorem force_ops_match_nonblocking_witness :
    ((emplace (2^2) (spsc_queue.init Nat (2^2)) 5).1 = true ∧
     force_emplace (2^2) (spsc_queue.init Nat (2^2)) 5
       = some (emplace (2^2) (spsc_queue.init Nat (2^2)) 5).2) ∧
    (∃ v q', pop (2^2) (emplace (2^2) (spsc_queue.init Nat (2^2)) 5).2
               = (some v, q') ∧
             force_pop (2^2) (emplace (2^2) (spsc_queue.init Nat (2^2)) 5).2
               = some (v, q')) :=
  ⟨(force_ops_match_nonblocking (2^2) (spsc_queue.init Nat (2^2)) 5).1
     (by decide),
   (force_ops_match_nonblocking (2^2)
      (emplace (2^2) (spsc_queue.init Nat (2^2)) 5).2 9).2 (by decide)⟩

/-- C10: in every state reachable from a freshly constructed queue by
any sequence of operations, all four stored indices are strictly below
`2^k` (every stored index is first masked with `2^k − 1`), and
consequently `size()` always lies between `0` and `2^k − 1`. -/
theorem indices_bounded {α : Type} [Inhabited α] {k : Nat}
    {q : spsc_queue α} (hre : Reachable α k q) :
    q.writeIndex_ < 2^k ∧ q.readIndex_ < 2^k ∧
    q.readIndexCache_ < 2^k ∧ q.writeIndexCache_ < 2^k ∧
    size (2^k) q ≤ 2^k - 1 := by
  have hinv := inv_of_reachable hre
  exact ⟨hinv.2.1, hinv.2.2.1, hinv.2.2.2.1, hinv.2.2.2.2.1,
         size_le hinv.2.1 hinv.2.2.1⟩

theorem indices_bounded_witness :
    ((pop (2^1) (emplace (2^1) (spsc_queue.init Nat (2^1)) 3).2).2).writeIndex_
      < 2^1 ∧
    ((pop (2^1) (emplace (2^1) (spsc_queue.init Nat (2^1)) 3).2).2).readIndex_
      < 2^1 ∧
    ((pop (2^1) (emplace (2^1)
        (spsc_queue.init Nat (2^1)) 3).2).2).readIndexCache_ < 2^1 ∧
    ((pop (2^1) (emplace (2^1)
        (spsc_queue.init Nat (2^1)) 3).2).2).writeIndexCache_ < 2^1 ∧
    size (2^1) ((pop (2^1) (emplace (2^1)
        (spsc_queue.init Nat (2^1)) 3).2).2) ≤ 2^1 - 1 :=
  indices_bounded
    (Reachable.step_pop _ (Reachable.step_emplace _ 3 Reachable.init))

end nsqueue
